import Mathlib

/-!
Verification of the RSTM core against its source:
 - libitm2stm/Scope.cpp (Scope::LoggedWord::clip/undo, Scope::rollback,
   Scope::setThrownObject, Scope::clearThrownObject)
 - libitm2stm/libitm-5.1,5.cpp (tmabort)
 - libstm/types.cpp (WriteSet::rebuild/resize, UndoLog::undo,
   ByteLoggingUndoLogEntry::filterSlow)
 - libstm/algs/byteeager.cpp (read_ro, read_rw, write_reserve, irrevoc)
 - libstm/algs/nano.cpp (commit_rw, irrevoc)
Machine words are modelled as Nat; byte memory as a function Nat → Nat;
spin loops are collapsed under a static (interference-free) environment,
with the bounded spin turning into a self-abort exactly as in the source.
-/

set_option maxRecDepth 8000

namespace RSTM

/-- Pointwise update of Nat-indexed state; models array and memory stores. -/
def upd {α : Type} (f : Nat → α) (i : Nat) (v : α) : Nat → α :=
  fun j => if j = i then v else f j

/-- Dispatch mode of a transaction: which read/write/commit function
pointers are installed (read-only or read-write variants). -/
inductive Mode where
  | ro
  | rw
deriving DecidableEq

/-- Result of a transactional operation: a value, or a self-abort
(tx->abort() long-jumps out of the operation). -/
inductive Outcome (α : Type) where
  | ok (a : α)
  | abort
deriving DecidableEq

/-! ## Scope (libitm2stm/Scope.cpp) -/

/-- A word logged for undo-on-rollback: start byte address, byte count,
and the logged value (Scope::LoggedWord fields address_, bytes_, value_). -/
structure LoggedWord where
  address : Nat
  bytes : Nat
  value : Nat
deriving DecidableEq

/-- Result of Scope::LoggedWord::clip: either the word survives (possibly
clipped), or one of the two trailing assertions fires; the carried word is
the field state at the moment the assertion is evaluated. -/
inductive ClipRes where
  | ok (w : LoggedWord)
  | assertIncompatible (w : LoggedWord)
  | assertUnreachable (w : LoggedWord)
deriving DecidableEq

/-- Scope::LoggedWord::clip(lower, upper), Scope.cpp lines 42-74, translated
branch for branch.  begin() is address, end() is address + bytes, and the
later guards are re-evaluated on the mutated fields exactly as in the
source.  The source has no return after the two one-sided clip branches, so
control falls through to the final assert(false) labeled "unreachable". -/
def LoggedWord.clip (w : LoggedWord) (lower upper : Nat) : ClipRes :=
  if w.address + w.bytes ≤ lower ∨ w.address ≥ upper then ClipRes.ok w
  else if w.address ≥ lower ∧ w.address + w.bytes ≤ upper then
    ClipRes.ok { w with bytes := 0 }
  else
    let w1 := if w.address < lower ∧ w.address + w.bytes < upper then
        { w with bytes := lower - w.address }
      else w
    let w2 := if w1.address > lower ∧ w1.address + w1.bytes > upper then
        { address := upper, bytes := w1.address + w1.bytes - upper,
          value := w1.value >>> ((upper - w1.address) * 8) }
      else w1
    if w2.address > lower ∧ w2.address + w2.bytes < upper - 1 then
      ClipRes.assertIncompatible w2
    else ClipRes.assertUnreachable w2

/-- The clip configurations that survive both assertions: the logged word
either misses the thrown range entirely or is wholly contained in it. -/
def clipTotal (w : LoggedWord) (lo hi : Nat) : Prop :=
  w.address + w.bytes ≤ lo ∨ hi ≤ w.address ∨
    (lo ≤ w.address ∧ w.address + w.bytes ≤ hi)

instance (w : LoggedWord) (lo hi : Nat) : Decidable (clipTotal w lo hi) := by
  unfold clipTotal; infer_instance

/-- The word clip actually produces in the assertion-free configurations:
unchanged on no intersection, emptied on full containment. -/
def clipApply (w : LoggedWord) (lo hi : Nat) : LoggedWord :=
  if w.address + w.bytes ≤ lo ∨ hi ≤ w.address then w else { w with bytes := 0 }

/-- Trace of observable rollback actions, used to state the order of the
undo replay and the callback phase. -/
inductive Event where
  | undoWrite (address bytes value : Nat)
  | callback (f : Nat)
deriving DecidableEq

/-- __builtin_memcpy(address, &value, bytes) over byte memory: bytes of
value are stored little-endian starting at the given address. -/
def applyWriteLE (mem : Nat → Nat) (a len v : Nat) : Nat → Nat :=
  (List.range len).foldl (fun m i => upd m (a + i) (v >>> (8 * i) % 256)) mem

/-- One nested transaction activation (Scope.h / Scope.cpp): aborted flag,
id, thrown-object range (NULL modelled as address 0), rollback callbacks,
undo list and commit callbacks.  Callbacks are opaque Nat tags. -/
structure Scope where
  aborted : Bool
  id : Nat
  thrown : Nat × Nat
  do_on_rollback : List Nat
  undo_on_rollback : List LoggedWord
  do_on_commit : List Nat
deriving DecidableEq

/-- The undo replay of Scope::rollback step (1): each logged word is
clipped against the thrown range and then written; a clip assertion stops
the whole rollback (none). -/
def Scope.undoAll (lo hi : Nat) : List LoggedWord → (Nat → Nat) →
    Option ((Nat → Nat) × List Event)
  | [], mem => some (mem, [])
  | w :: rest, mem =>
    match w.clip lo hi with
    | ClipRes.ok w' =>
      match Scope.undoAll lo hi rest (applyWriteLE mem w'.address w'.bytes w'.value) with
      | none => none
      | some (m, evs) =>
        some (m, Event.undoWrite w'.address w'.bytes w'.value :: evs)
    | _ => none

/-- The memory produced by the undo replay in the assertion-free
configurations: every word is written after clipApply. -/
def clippedReplay (lo hi : Nat) : List LoggedWord → (Nat → Nat) → Nat → Nat
  | [], mem => mem
  | w :: rest, mem =>
    clippedReplay lo hi rest
      (applyWriteLE mem (clipApply w lo hi).address (clipApply w lo hi).bytes
        (clipApply w lo hi).value)

/-- Scope::rollback (Scope.cpp lines 103-126): (1) undo the logged words in
reverse insertion order, clipping each against thrown_; (2) run the
do_on_rollback callbacks in FIFO order; (3) clear do_on_commit; (4) set
aborted; (5) return thrown_. -/
def Scope.rollback (s : Scope) (mem : Nat → Nat) :
    Option (Scope × (Nat → Nat) × List Event × (Nat × Nat)) :=
  match Scope.undoAll s.thrown.1 (s.thrown.1 + s.thrown.2) s.undo_on_rollback.reverse mem with
  | none => none
  | some (m, evs) =>
    some ({ s with do_on_commit := [], aborted := true }, m,
          evs ++ s.do_on_rollback.map Event.callback, s.thrown)

/-- Scope::setThrownObject (Scope.cpp lines 128-134): asserts that no
thrown object is registered (thrown_.first == NULL, i.e. 0) and records
the pair; none models the assertion firing. -/
def Scope.setThrownObject (s : Scope) (addr length : Nat) : Option Scope :=
  if s.thrown.1 = 0 then some { s with thrown := (addr, length) } else none

/-- Scope::clearThrownObject (Scope.cpp lines 136-139): thrown_.reset(). -/
def Scope.clearThrownObject (s : Scope) : Scope :=
  { s with thrown := (0, 0) }

/-- tmabort (libitm-5.1,5.cpp lines 37-46): on a conflict abort the runtime
clears the innermost scope's thrown object before restarting.  Modelled
from the spec: _ITM_transaction::restart (not under src/) then runs the
algorithm rollback on this scope, so the scope below is the one rollback
sees. -/
def tmabort (s : Scope) : Scope :=
  Scope.clearThrownObject s

/-! ## UndoLog (libstm/types.cpp) -/

/-- Number of bytes in a logged word (sizeof(val) for uintptr_t). -/
def WORD_BYTES : Nat := 8

/-- Byte-logging undo-log entry.  Modelled from the spec for the layout
(UndoLog.hpp is not under src/): start byte address of the logged word, the
logged value, and one mask flag per byte; the union field mask is zero
exactly when every byte flag is clear. -/
structure ULEntry where
  addr : Nat
  val : Nat
  mask : Nat → Bool

/-- The per-byte mask clearing performed by filterSlow's loop: bytes of the
word that fall inside [lower, upper) lose their mask bit. -/
def maskFilter (e : ULEntry) (lower upper : Nat) : Nat → Bool :=
  fun i => if i < WORD_BYTES ∧ lower ≤ e.addr + i ∧ e.addr + i < upper then false
    else e.mask i

/-- ByteLoggingUndoLogEntry::filterSlow (types.cpp lines 177-196): total
containment (addr >= lower and addr + 1 < upper in word-pointer arithmetic)
filters the entry outright; otherwise the per-byte loop clears the mask
bits inside the range and the entry is filtered iff the mask became zero. -/
def ULEntry.filterSlow (e : ULEntry) (lower upper : Nat) : Bool × ULEntry :=
  if lower ≤ e.addr ∧ e.addr + WORD_BYTES < upper then (true, e)
  else
    let e' := { e with mask := maskFilter e lower upper }
    ((List.range WORD_BYTES).all fun i => !(maskFilter e lower upper i), e')

/-- Modelled from the spec: the inline fastpath
ByteLoggingUndoLogEntry::filter (UndoLog.hpp, not under src/) keeps an
entry untouched when its byte range does not intersect [lower, upper) and
otherwise defers to the outlined filterSlow in types.cpp. -/
def ULEntry.filter (e : ULEntry) (lower upper : Nat) : Bool × ULEntry :=
  if e.addr + WORD_BYTES ≤ lower ∨ upper ≤ e.addr then (false, e)
  else e.filterSlow lower upper

/-- ByteLoggingUndoLogEntry::undo: write the logged value back, one byte at
a time, honoring the byte mask (little-endian). -/
def ULEntry.applyMasked (mem : Nat → Nat) (e : ULEntry) : Nat → Nat :=
  (List.range WORD_BYTES).foldl
    (fun m i => if e.mask i then upd m (e.addr + i) (e.val >>> (8 * i) % 256) else m) mem

/-- UndoLog::undo(exception, len) (types.cpp lines 148-169): replay in
reverse insertion order; with a null exception (modelled as 0) nothing is
filtered, otherwise each entry is run through filter against
[exception, exception + len) and skipped when filtered out. -/
def UndoLog.undo (exception len : Nat) (log : List ULEntry) (mem : Nat → Nat) :
    Nat → Nat :=
  if exception = 0 then log.reverse.foldl ULEntry.applyMasked mem
  else
    log.reverse.foldl (fun m e =>
      let r := e.filter exception (exception + len)
      if r.1 then m else ULEntry.applyMasked m r.2) mem

/-! ## WriteSet (libstm/types.cpp) -/

/-- One slot of the open-addressed index (index_t): version tag, address,
and the list position it resolves to. -/
structure WSlot where
  version : Nat
  address : Nat
  index : Nat
deriving DecidableEq

/-- One redo-log list entry (WriteSetEntry): address, value, byte mask. -/
structure WEntry where
  addr : Nat
  val : Nat
  mask : Nat
deriving DecidableEq

/-- The WriteSet control fields: shift and ilength describe the index
(ilength = 2^(32 - shift)), version is the lazy-clear tag, capacity and
list back the redo log. -/
structure WriteSet where
  shift : Nat
  ilength : Nat
  version : Nat
  capacity : Nat
  list : List WEntry
deriving DecidableEq

/-- Modelled from the spec: WriteSet::hash (WriteSet.hpp is not under
src/) is the multiplicative hash (addr >> k) * c truncated to 32 bits and
shifted down by shift, so it indexes the 2^(32 - shift)-slot table. -/
def wsHash (shift a : Nat) : Nat :=
  (((a >>> 3) * 2654435769) % 4294967296) >>> shift

/-- The probe loop of WriteSet::rebuild: walk from h while slots carry the
current version, and return the first free slot.  The source loop is
unbounded; fuel bounds it, and with a free slot present n probes suffice. -/
def probeFree (idx : Nat → WSlot) (n ver : Nat) : Nat → Nat → Option Nat
  | 0, _ => none
  | fuel + 1, h =>
    if (idx (h % n)).version = ver then probeFree idx n ver fuel (h % n + 1)
    else some (h % n)

/-- The lookup probe of WriteSet::find: walk from h over slots carrying the
current version until the address matches; a stale slot ends the probe. -/
def probeFind (idx : Nat → WSlot) (n ver a : Nat) : Nat → Nat → Option Nat
  | 0, _ => none
  | fuel + 1, h =>
    if (idx (h % n)).version = ver then
      if (idx (h % n)).address = a then some (h % n)
      else probeFind idx n ver a fuel (h % n + 1)
    else none

/-- The insertion loop of WriteSet::rebuild (types.cpp lines 84-96): place
each list entry, in order, at the first free probe slot of its hash. -/
def rebuildGo (hf : Nat → Nat) (n ver : Nat) :
    List Nat → Nat → (Nat → WSlot) → Option (Nat → WSlot)
  | [], _, idx => some idx
  | a :: rest, i, idx =>
    match probeFree idx n ver n (hf a) with
    | none => none
    | some h => rebuildGo hf n ver rest (i + 1) (upd idx h ⟨ver, a, i⟩)

/-- WriteSet::doubleIndexLength (types.cpp lines 45-52): asserts shift is
nonzero, decrements it and doubles the index length. -/
def WriteSet.doubleIndexLength (ws : WriteSet) : Option WriteSet :=
  if ws.shift = 0 then none
  else some { ws with shift := ws.shift - 1, ilength := 2 ^ (32 - (ws.shift - 1)) }

/-- WriteSet::rebuild (types.cpp lines 76-97): assert version is nonzero,
extend the index to a fresh (all-zero) table of doubled length, and insert
every list entry at the first free probe slot of its hash. -/
def WriteSet.rebuild (ws : WriteSet) : Option (WriteSet × (Nat → WSlot)) :=
  if ws.version = 0 then none
  else
    match ws.doubleIndexLength with
    | none => none
    | some ws2 =>
      match rebuildGo (wsHash ws2.shift) ws2.ilength ws.version
          (ws.list.map WEntry.addr) 0 (fun _ => ⟨0, 0, 0⟩) with
      | none => none
      | some idx => some (ws2, idx)

/-- WriteSet::resize (types.cpp lines 99-107): double capacity; the memcpy
keeps the first lsize entries unchanged and in order. -/
def WriteSet.resize (ws : WriteSet) : WriteSet :=
  { ws with capacity := 2 * ws.capacity }

/-- Look an address up in the index produced by rebuild: linear probing
from its hash, returning the slot found. -/
def WriteSet.rebuildLookup (ws : WriteSet) (a : Nat) : Option WSlot :=
  match ws.rebuild with
  | none => none
  | some (ws2, idx) =>
    (probeFind idx ws2.ilength ws.version a ws2.ilength (wsHash ws2.shift a)).map idx

/-- Number of index slots not carrying the current version. -/
def freeCount (idx : Nat → WSlot) (n ver : Nat) : Nat :=
  ((Finset.range n).filter fun h => (idx h).version ≠ ver).card

/-! ## ByteEager (libstm/algs/byteeager.cpp) -/

/-- Modelled from the spec: the bytelock record (metadata.hpp is not under
src/): one owner word, per-thread reader bytes, a version counter and
per-thread reader_version snapshots (BYTEEAGER_VERSIONING is defined). -/
structure Bytelock where
  owner : Nat
  reader : Nat → Nat
  version : Nat
  reader_version : Nat → Nat

/-- Size of the reader array scanned by the drain loop. -/
def MAX_THREADS : Nat := 32

/-- One ByteEager undo-log entry: UndoLogEntry(addr, *addr, mask). -/
structure BEUndoEntry where
  addr : Nat
  val : Nat
  mask : Nat
deriving DecidableEq

/-- The per-thread state ByteEager uses: thread id (>= 1), read- and
write-bytelock lists, undo log, and the installed dispatch mode (the
read/write/commit function-pointer triple). -/
structure BETx where
  id : Nat
  r_bytelocks : List Nat
  w_bytelocks : List Nat
  undo_log : List BEUndoEntry
  mode : Mode
deriving DecidableEq

/-- Shared state: the bytelock table and word-addressed memory. -/
structure BEState where
  tbl : Nat → Bytelock
  mem : Nat → Nat

/-- Modelled from the spec: get_bytelock hashes an address to its bytelock
bucket (metadata.hpp is not under src/); we give every address its own
bucket, so the bucket id is the address itself. -/
def get_bytelock (addr : Nat) : Nat := addr

/-- ByteEager::read_ro (byteeager.cpp lines 122-169).  The spin loops are
collapsed under a static environment: owner == 0 succeeds at once, and a
nonzero owner persists until tries exceeds READ_TIMEOUT, so the
transaction self-aborts with its reader byte dropped. -/
def ByteEager.read_ro (tx : BETx) (st : BEState) (addr : Nat) :
    Outcome Nat × BETx × BEState :=
  let lid := get_bytelock addr
  let lock := st.tbl lid
  let me := tx.id - 1
  if lock.reader me = 1 then (Outcome.ok (st.mem addr), tx, st)
  else
    let tx1 := if lock.reader_version me = 0 then
        { tx with r_bytelocks := tx.r_bytelocks ++ [lid] }
      else tx
    let lock1 := { lock with reader := upd lock.reader me 1 }
    if lock.owner = 0 then
      if lock1.reader_version me = 0 then
        let lock2 := { lock1 with reader_version := upd lock1.reader_version me lock1.version }
        (Outcome.ok (st.mem addr), tx1, { st with tbl := upd st.tbl lid lock2 })
      else if lock1.reader_version me ≠ lock1.version then
        (Outcome.abort, tx1, { st with tbl := upd st.tbl lid lock1 })
      else (Outcome.ok (st.mem addr), tx1, { st with tbl := upd st.tbl lid lock1 })
    else
      let lock2 := { lock1 with reader := upd lock1.reader me 0 }
      (Outcome.abort, tx1, { st with tbl := upd st.tbl lid lock2 })

/-- ByteEager::read_rw (byteeager.cpp lines 174-225): identical to read_ro
except for the leading writer-slot check. -/
def ByteEager.read_rw (tx : BETx) (st : BEState) (addr : Nat) :
    Outcome Nat × BETx × BEState :=
  let lid := get_bytelock addr
  let lock := st.tbl lid
  let me := tx.id - 1
  if lock.owner = tx.id then (Outcome.ok (st.mem addr), tx, st)
  else if lock.reader me = 1 then (Outcome.ok (st.mem addr), tx, st)
  else
    let tx1 := if lock.reader_version me = 0 then
        { tx with r_bytelocks := tx.r_bytelocks ++ [lid] }
      else tx
    let lock1 := { lock with reader := upd lock.reader me 1 }
    if lock.owner = 0 then
      if lock1.reader_version me = 0 then
        let lock2 := { lock1 with reader_version := upd lock1.reader_version me lock1.version }
        (Outcome.ok (st.mem addr), tx1, { st with tbl := upd st.tbl lid lock2 })
      else if lock1.reader_version me ≠ lock1.version then
        (Outcome.abort, tx1, { st with tbl := upd st.tbl lid lock1 })
      else (Outcome.ok (st.mem addr), tx1, { st with tbl := upd st.tbl lid lock1 })
    else
      let lock2 := { lock1 with reader := upd lock1.reader me 0 }
      (Outcome.abort, tx1, { st with tbl := upd st.tbl lid lock2 })

/-- ByteEager::write_reserve (byteeager.cpp lines 395-448): log if already
writer; otherwise CAS-acquire the owner word (a statically held foreign
owner means the ACQUIRE_TIMEOUT spin aborts), record the lock, drop the
own reader byte, run the versioned-reader check, drain the other readers
(statically nonzero readers mean the DRAIN_TIMEOUT spin aborts), bump the
version, log the prior value — and switch dispatch to the read-write
variants only when the write-lock list size is exactly one.  No store to
memory is performed (OnFirstWrite is modelled as the mode switch). -/
def ByteEager.write_reserve (tx : BETx) (st : BEState) (addr mask : Nat) :
    Outcome Unit × BETx × BEState :=
  let lid := get_bytelock addr
  let lock := st.tbl lid
  let me := tx.id - 1
  if lock.owner = tx.id then
    (Outcome.ok (), { tx with undo_log := tx.undo_log ++ [⟨addr, st.mem addr, mask⟩] }, st)
  else if lock.owner ≠ 0 then (Outcome.abort, tx, st)
  else
    let lock1 := { lock with owner := tx.id }
    let tx1 := { tx with w_bytelocks := tx.w_bytelocks ++ [lid] }
    let lock2 := { lock1 with reader := upd lock1.reader me 0 }
    if lock2.reader_version me ≠ 0 ∧ lock2.reader_version me ≠ lock2.version then
      (Outcome.abort, tx1, { st with tbl := upd st.tbl lid lock2 })
    else if (List.range MAX_THREADS).all (fun j => lock2.reader j == 0) then
      let lock3 := { lock2 with version := lock2.version + 1 }
      let tx2 := { tx1 with undo_log := tx1.undo_log ++ [⟨addr, st.mem addr, mask⟩] }
      let tx3 := if tx2.w_bytelocks.length = 1 then { tx2 with mode := Mode.rw } else tx2
      (Outcome.ok (), tx3, { st with tbl := upd st.tbl lid lock3 })
    else (Outcome.abort, tx1, { st with tbl := upd st.tbl lid lock2 })

/-- ByteEager::irrevoc (byteeager.cpp lines 502-505): always false, no
state touched. -/
def ByteEager.irrevoc (tx : BETx) : Bool × BETx := (false, tx)

/-! ## Nano (libstm/algs/nano.cpp) -/

/-- Modelled from the spec: the orec word has a lock bit and id-or-version
bits (metadata.hpp is not under src/); the lock bit is the top bit of the
64-bit word.  This is 2^63. -/
def LOCK_BIT : Nat := 9223372036854775808

/-- The fields.lock test on an orec word. -/
def lockedWord (w : Nat) : Bool := LOCK_BIT ≤ w

/-- An ownership record: current word v and saved previous version p. -/
structure Orec where
  v : Nat
  p : Nat
deriving DecidableEq

/-- The per-thread state Nano uses: thread id, redo log (writes), logged
read set (nanorecs, orec id with observed word), held orec list, and the
installed dispatch mode. -/
structure NanoTx where
  id : Nat
  writes : List (Nat × Nat)
  nanorecs : List (Nat × Nat)
  locks : List Nat
  mode : Mode
deriving DecidableEq

/-- Shared state: the orec table and word-addressed memory. -/
structure NanoState where
  orecs : Nat → Orec
  mem : Nat → Nat

/-- tx->my_lock: lock bit plus thread id. -/
def myLock (tx : NanoTx) : Nat := LOCK_BIT + tx.id

/-- Modelled from the spec: get_nanorec hashes an address to its orec
(metadata.hpp is not under src/); we give every address its own orec. -/
def get_nanorec (addr : Nat) : Nat := addr

/-- The acquire loop of Nano::commit_rw (nano.cpp lines 91-110): for each
write-set entry, skip orecs already held, lock unlocked orecs (the CAS
succeeds in the interference-free model) saving the old word to p and
recording the orec, and fail on an orec locked by another transaction. -/
def Nano.acquire (myl : Nat) :
    List (Nat × Nat) → (Nat → Orec) → List Nat → Bool × (Nat → Orec) × List Nat
  | [], os, ls => (true, os, ls)
  | (a, _) :: rest, os, ls =>
    let o := os (get_nanorec a)
    if o.v = myl then Nano.acquire myl rest os ls
    else if lockedWord o.v then (false, os, ls)
    else Nano.acquire myl rest (upd os (get_nanorec a) ⟨myl, o.v⟩) (ls ++ [get_nanorec a])

/-- The validation loop of Nano::commit_rw (nano.cpp lines 113-120): each
read-set entry passes iff its orec word is unchanged, or the orec is held
by me and the logged word equals the saved previous version. -/
def Nano.validateRS (myl : Nat) (os : Nat → Orec) (rs : List (Nat × Nat)) : Bool :=
  rs.all fun r => ((os r.1).v == r.2) || (((os r.1).v == myl) && (r.2 == (os r.1).p))

/-- The acceptance test of the validation loop, as a proposition. -/
def Nano.accept (myl : Nat) (os : Nat → Orec) (r : Nat × Nat) : Prop :=
  (os r.1).v = r.2 ∨ ((os r.1).v = myl ∧ r.2 = (os r.1).p)

instance (myl : Nat) (os : Nat → Orec) (r : Nat × Nat) :
    Decidable (Nano.accept myl os r) := by
  unfold Nano.accept; infer_instance

/-- WriteSet::writeback: run the redo log in insertion order. -/
def WriteSet.writeback (mem : Nat → Nat) (ws : List (Nat × Nat)) : Nat → Nat :=
  ws.foldl (fun m av => upd m av.1 av.2) mem

/-- The release loop of Nano::commit_rw (nano.cpp lines 126-128): publish
v = p + 1 on every held orec. -/
def Nano.releaseLocks (os : Nat → Orec) (ls : List Nat) : Nat → Orec :=
  ls.foldl (fun os a => upd os a ⟨(os a).p + 1, (os a).p⟩) os

/-- Nano::commit_rw (nano.cpp lines 87-135): acquire all write-set orecs,
validate the read set, write back the redo log in insertion order, release
every held orec with v = p + 1 and reset the per-thread lists.  An abort in
the acquire or validation phase leaves memory unwritten (the partially
acquired orecs persist, as the source's tx->abort() path rolls them back
later). -/
def Nano.commit_rw (tx : NanoTx) (st : NanoState) :
    Outcome Unit × NanoTx × NanoState :=
  let r := Nano.acquire (myLock tx) tx.writes st.orecs tx.locks
  if r.1 = false then
    (Outcome.abort, { tx with locks := r.2.2 }, { st with orecs := r.2.1 })
  else if Nano.validateRS (myLock tx) r.2.1 tx.nanorecs = false then
    (Outcome.abort, { tx with locks := r.2.2 }, { st with orecs := r.2.1 })
  else
    (Outcome.ok (),
     { tx with writes := [], nanorecs := [], locks := [], mode := Mode.ro },
     { orecs := Nano.releaseLocks r.2.1 r.2.2,
       mem := WriteSet.writeback st.mem tx.writes })

/-- Nano::irrevoc (nano.cpp lines 248-250): always false, no state
touched. -/
def Nano.irrevoc (tx : NanoTx) : Bool × NanoTx := (false, tx)

/-! ## Helper lemmas -/

theorem upd_same {α : Type} (f : Nat → α) (i : Nat) (v : α) : upd f i v i = v := by
  simp [upd]

theorem upd_other {α : Type} (f : Nat → α) (i j : Nat) (v : α) (h : j ≠ i) :
    upd f i v j = f j := by
  simp [upd, h]

theorem clip_of_total (w : LoggedWord) (lo hi : Nat) (h : clipTotal w lo hi) :
    LoggedWord.clip w lo hi = ClipRes.ok (clipApply w lo hi) := by
  unfold LoggedWord.clip clipApply
  rcases h with h1 | h1 | h1
  · rw [if_pos (Or.inl h1), if_pos (Or.inl h1)]
  · rw [if_pos (Or.inr h1), if_pos (Or.inr h1)]
  · by_cases h2 : w.address + w.bytes ≤ lo ∨ w.address ≥ hi
    · rw [if_pos h2, if_pos h2]
    · rw [if_neg h2, if_neg h2, if_pos ⟨h1.1, h1.2⟩]

theorem clip_zero (w : LoggedWord) : LoggedWord.clip w 0 0 = ClipRes.ok w := by
  unfold LoggedWord.clip
  rw [if_pos (Or.inr (Nat.zero_le _))]

theorem clipApply_zero (w : LoggedWord) : clipApply w 0 0 = w := by
  unfold clipApply
  rw [if_pos (Or.inr (Nat.zero_le _))]

theorem foldl_upd_outside (g : Nat → Nat) (a b : Nat) :
    ∀ (l : List Nat) (mem : Nat → Nat), (∀ i ∈ l, a + i ≠ b) →
      (l.foldl (fun m i => upd m (a + i) (g i)) mem) b = mem b := by
  intro l
  induction l with
  | nil => intro mem _; rfl
  | cons i rest ih =>
    intro mem h
    have hb : a + i ≠ b := h i (List.mem_cons_self i rest)
    rw [List.foldl_cons, ih _ (fun j hj => h j (List.mem_cons_of_mem i hj))]
    exact upd_other mem (a + i) b (g i) (Ne.symm hb)

theorem applyWriteLE_outside (mem : Nat → Nat) (a len v b : Nat)
    (hb : b < a ∨ a + len ≤ b) : applyWriteLE mem a len v b = mem b := by
  unfold applyWriteLE
  refine foldl_upd_outside _ a b _ mem ?_
  intro i hi
  rw [List.mem_range] at hi
  omega

theorem undoAll_cons_ok (lo hi : Nat) (w : LoggedWord) (rest : List LoggedWord)
    (mem : Nat → Nat) (w' : LoggedWord) (h : w.clip lo hi = ClipRes.ok w') :
    Scope.undoAll lo hi (w :: rest) mem =
      match Scope.undoAll lo hi rest (applyWriteLE mem w'.address w'.bytes w'.value) with
      | none => none
      | some (m, evs) => some (m, Event.undoWrite w'.address w'.bytes w'.value :: evs) := by
  conv_lhs => unfold Scope.undoAll
  rw [h]

theorem undoAll_total (lo hi : Nat) :
    ∀ (l : List LoggedWord) (mem : Nat → Nat), (∀ w ∈ l, clipTotal w lo hi) →
      Scope.undoAll lo hi l mem = some (clippedReplay lo hi l mem,
        l.map fun w => Event.undoWrite (clipApply w lo hi).address
          (clipApply w lo hi).bytes (clipApply w lo hi).value) := by
  intro l
  induction l with
  | nil => intro mem _; rfl
  | cons w rest ih =>
    intro mem h
    have hw := h w (List.mem_cons_self w rest)
    rw [undoAll_cons_ok lo hi w rest mem (clipApply w lo hi) (clip_of_total w lo hi hw),
      ih _ (fun u hu => h u (List.mem_cons_of_mem w hu))]
    rfl

theorem clippedReplay_protect (lo hi : Nat) :
    ∀ (l : List LoggedWord) (mem : Nat → Nat) (b : Nat),
      (∀ w ∈ l, clipTotal w lo hi) → lo ≤ b → b < hi →
      clippedReplay lo hi l mem b = mem b := by
  intro l
  induction l with
  | nil => intro mem b _ _ _; rfl
  | cons w rest ih =>
    intro mem b h hlo hhi
    have hw := h w (List.mem_cons_self w rest)
    unfold clippedReplay
    rw [ih _ b (fun u hu => h u (List.mem_cons_of_mem w hu)) hlo hhi]
    by_cases hmiss : w.address + w.bytes ≤ lo ∨ hi ≤ w.address
    · have happ : clipApply w lo hi = w := by unfold clipApply; rw [if_pos hmiss]
      rw [happ]
      refine applyWriteLE_outside mem w.address w.bytes w.value b ?_
      rcases hmiss with h1 | h1
      · right; omega
      · left; omega
    · have happ : clipApply w lo hi = { w with bytes := 0 } := by
        unfold clipApply; rw [if_neg hmiss]
      rw [happ]
      rfl

theorem undoAll_zero :
    ∀ (l : List LoggedWord) (mem : Nat → Nat),
      Scope.undoAll 0 0 l mem = some
        (l.foldl (fun m w => applyWriteLE m w.address w.bytes w.value) mem,
         l.map fun w => Event.undoWrite w.address w.bytes w.value) := by
  intro l
  induction l with
  | nil => intro mem; rfl
  | cons w rest ih =>
    intro mem
    rw [undoAll_cons_ok 0 0 w rest mem w (clip_zero w), ih]
    rfl

theorem filter_contained (e : ULEntry) (lower upper : Nat)
    (h1 : lower ≤ e.addr) (h2 : e.addr + WORD_BYTES ≤ upper) :
    (e.filter lower upper).1 = true := by
  unfold ULEntry.filter ULEntry.filterSlow
  have hno : ¬ (e.addr + WORD_BYTES ≤ lower ∨ upper ≤ e.addr) := by
    intro h
    rcases h with h | h
    · have : (0 : Nat) < WORD_BYTES := by decide
      omega
    · have : (0 : Nat) < WORD_BYTES := by decide
      omega
  rw [if_neg hno]
  by_cases hc : lower ≤ e.addr ∧ e.addr + WORD_BYTES < upper
  · rw [if_pos hc]
  · rw [if_neg hc]
    have hb : ¬ (e.addr + WORD_BYTES < upper) := fun hb => hc ⟨h1, hb⟩
    show ((List.range WORD_BYTES).all fun i => !(maskFilter e lower upper i)) = true
    rw [List.all_eq_true]
    intro i hi
    rw [List.mem_range] at hi
    unfold maskFilter
    rw [if_pos ⟨hi, by omega, by omega⟩]
    rfl

theorem undo_filtered_all (exc len : Nat) :
    ∀ (l : List ULEntry) (mem : Nat → Nat),
      (∀ e ∈ l, exc ≤ e.addr ∧ e.addr + WORD_BYTES ≤ exc + len) →
      l.foldl (fun m e =>
        let r := e.filter exc (exc + len)
        if r.1 then m else ULEntry.applyMasked m r.2) mem = mem := by
  intro l
  induction l with
  | nil => intro mem _; rfl
  | cons e rest ih =>
    intro mem h
    have he := h e (List.mem_cons_self e rest)
    have hf := filter_contained e exc (exc + len) he.1 he.2
    rw [List.foldl_cons]
    have hstep : (let r := e.filter exc (exc + len)
        if r.1 then mem else ULEntry.applyMasked mem r.2) = mem := by
      simp only [hf, if_true]
    rw [hstep]
    exact ih mem (fun u hu => h u (List.mem_cons_of_mem e hu))

theorem probeFree_eq (idx : Nat → WSlot) (n ver : Nat) :
    ∀ (d h fuel : Nat), d < fuel →
      (∀ e, e < d → (idx ((h + e) % n)).version = ver) →
      (idx ((h + d) % n)).version ≠ ver →
      probeFree idx n ver fuel h = some ((h + d) % n) := by
  intro d
  induction d with
  | zero =>
    intro h fuel hf _ hfree
    cases fuel with
    | zero => omega
    | succ fuel =>
      unfold probeFree
      rw [Nat.add_zero] at hfree
      rw [if_neg hfree, Nat.add_zero]
  | succ d ih =>
    intro h fuel hf hocc hfree
    cases fuel with
    | zero => omega
    | succ fuel =>
      have hrw : ∀ e, (h % n + 1 + e) % n = (h + (e + 1)) % n := by
        intro e
        rw [Nat.add_assoc, Nat.mod_add_mod, Nat.add_comm 1 e, ← Nat.add_assoc]
      have h0 : (idx (h % n)).version = ver := by
        have := hocc 0 (Nat.succ_pos d)
        rwa [Nat.add_zero] at this
      unfold probeFree
      rw [if_pos h0]
      have key := ih (h % n + 1) fuel (by omega)
        (fun e he => by rw [hrw e]; exact hocc (e + 1) (by omega))
        (by rw [hrw d]; exact hfree)
      rw [key, hrw d]

theorem probeFind_eq (idx : Nat → WSlot) (n ver a : Nat) :
    ∀ (d h fuel : Nat), d < fuel →
      (∀ e, e < d → (idx ((h + e) % n)).version = ver ∧
        (idx ((h + e) % n)).address ≠ a) →
      (idx ((h + d) % n)).version = ver →
      (idx ((h + d) % n)).address = a →
      probeFind idx n ver a fuel h = some ((h + d) % n) := by
  intro d
  induction d with
  | zero =>
    intro h fuel hf _ hver haddr
    cases fuel with
    | zero => omega
    | succ fuel =>
      rw [Nat.add_zero] at hver haddr
      unfold probeFind
      rw [if_pos hver, if_pos haddr, Nat.add_zero]
  | succ d ih =>
    intro h fuel hf hocc hver haddr
    cases fuel with
    | zero => omega
    | succ fuel =>
      have hrw : ∀ e, (h % n + 1 + e) % n = (h + (e + 1)) % n := by
        intro e
        rw [Nat.add_assoc, Nat.mod_add_mod, Nat.add_comm 1 e, ← Nat.add_assoc]
      have h0 := hocc 0 (Nat.succ_pos d)
      rw [Nat.add_zero] at h0
      unfold probeFind
      rw [if_pos h0.1, if_neg h0.2]
      have key := ih (h % n + 1) fuel (by omega)
        (fun e he => by rw [hrw e]; exact hocc (e + 1) (by omega))
        (by rw [hrw d]; exact hver) (by rw [hrw d]; exact haddr)
      rw [key, hrw d]

theorem probe_first_free (idx : Nat → WSlot) (n ver : Nat) (hn : 0 < n)
    (hex : ∃ hf, hf < n ∧ (idx hf).version ≠ ver) (h : Nat) :
    ∃ d, d < n ∧ (∀ e, e < d → (idx ((h + e) % n)).version = ver) ∧
      (idx ((h + d) % n)).version ≠ ver := by
  obtain ⟨hf, hfn, hfree⟩ := hex
  have hr : h % n < n := Nat.mod_lt _ hn
  have hle : h % n ≤ hf + n := by omega
  have hd0 : (h + (hf + n - h % n) % n) % n = hf := by
    calc (h + (hf + n - h % n) % n) % n
        = (h + (hf + n - h % n)) % n := by rw [Nat.add_mod_mod]
      _ = (h % n + (hf + n - h % n)) % n := by rw [Nat.mod_add_mod]
      _ = (hf + n) % n := by rw [Nat.add_sub_cancel' hle]
      _ = hf % n := Nat.add_mod_right hf n
      _ = hf := Nat.mod_eq_of_lt hfn
  have hP : ∃ d, (idx ((h + d) % n)).version ≠ ver :=
    ⟨(hf + n - h % n) % n, by rw [hd0]; exact hfree⟩
  refine ⟨Nat.find hP, ?_, ?_, Nat.find_spec hP⟩
  · have hfind : Nat.find hP ≤ (hf + n - h % n) % n :=
      Nat.find_min' hP (by rw [hd0]; exact hfree)
    exact Nat.lt_of_le_of_lt hfind (Nat.mod_lt _ hn)
  · intro e he
    have := Nat.find_min hP he
    exact not_not.mp this

theorem freeCount_pos_exists (idx : Nat → WSlot) (n ver : Nat)
    (h : 0 < freeCount idx n ver) : ∃ hf, hf < n ∧ (idx hf).version ≠ ver := by
  unfold freeCount at h
  obtain ⟨x, hx⟩ := Finset.card_pos.mp h
  rw [Finset.mem_filter, Finset.mem_range] at hx
  exact ⟨x, hx.1, hx.2⟩

theorem freeCount_update (idx : Nat → WSlot) (n ver : Nat) (h0 : Nat) (s : WSlot)
    (hh : h0 < n) (hfree : (idx h0).version ≠ ver) (hs : s.version = ver) :
    freeCount (upd idx h0 s) n ver = freeCount idx n ver - 1 := by
  unfold freeCount
  have hset : ((Finset.range n).filter fun h => ((upd idx h0 s) h).version ≠ ver) =
      ((Finset.range n).filter fun h => (idx h).version ≠ ver).erase h0 := by
    ext x
    rw [Finset.mem_filter, Finset.mem_erase, Finset.mem_filter]
    by_cases hx : x = h0
    · subst hx
      simp [upd, hs]
    · simp [upd, hx]
  rw [hset, Finset.card_erase_of_mem]
  rw [Finset.mem_filter, Finset.mem_range]
  exact ⟨hh, hfree⟩

theorem rebuildGo_cons (hf0 : Nat → Nat) (n ver a : Nat) (rest : List Nat)
    (i0 : Nat) (idx : Nat → WSlot) (h1 : Nat)
    (hp : probeFree idx n ver n (hf0 a) = some h1) :
    rebuildGo hf0 n ver (a :: rest) i0 idx =
      rebuildGo hf0 n ver rest (i0 + 1) (upd idx h1 ⟨ver, a, i0⟩) := by
  conv_lhs => unfold rebuildGo
  rw [hp]

theorem rebuildGo_spec (hf0 : Nat → Nat) (n ver : Nat) (hn : 0 < n) :
    ∀ (addrs : List Nat) (idx : Nat → WSlot) (i0 : Nat) (placed : List Nat),
      addrs.length ≤ freeCount idx n ver →
      (∀ h, h < n → (idx h).version = ver → (idx h).address ∈ placed) →
      (placed ++ addrs).Nodup →
      ∃ idx', rebuildGo hf0 n ver addrs i0 idx = some idx' ∧
        (∀ h, (idx h).version = ver → idx' h = idx h) ∧
        (∀ h, h < n → (idx' h).version = ver →
          (idx' h).address ∈ placed ++ addrs) ∧
        ∀ j (hj : j < addrs.length), ∃ d, d < n ∧
          (∀ e, e < d →
            (idx' ((hf0 (addrs.get ⟨j, hj⟩) + e) % n)).version = ver ∧
            (idx' ((hf0 (addrs.get ⟨j, hj⟩) + e) % n)).address ≠ addrs.get ⟨j, hj⟩) ∧
          idx' ((hf0 (addrs.get ⟨j, hj⟩) + d) % n) =
            ⟨ver, addrs.get ⟨j, hj⟩, i0 + j⟩ := by
  intro addrs
  induction addrs with
  | nil =>
    intro idx i0 placed _ hocc _
    refine ⟨idx, rfl, fun h _ => rfl, ?_, ?_⟩
    · intro h hhn hv
      rw [List.append_nil]
      exact hocc h hhn hv
    · intro j hj
      exact absurd hj (Nat.not_lt_zero j)
  | cons a rest ih =>
    intro idx i0 placed hlen hocc hnd
    rw [List.length_cons] at hlen
    have hpos : 0 < freeCount idx n ver := by omega
    obtain ⟨d, hdn, hpath, hfree⟩ :=
      probe_first_free idx n ver hn (freeCount_pos_exists idx n ver hpos) (hf0 a)
    have hprobe : probeFree idx n ver n (hf0 a) = some ((hf0 a + d) % n) :=
      probeFree_eq idx n ver d (hf0 a) n hdn hpath hfree
    have hh1n : (hf0 a + d) % n < n := Nat.mod_lt _ hn
    have hanotp : a ∉ placed := by
      have hdisj := List.disjoint_of_nodup_append hnd
      exact fun hmem => hdisj hmem (List.mem_cons_self a rest)
    have hnd1 : ((placed ++ [a]) ++ rest).Nodup := by
      rw [List.append_assoc, List.singleton_append]
      exact hnd
    have hlen1 : rest.length ≤
        freeCount (upd idx ((hf0 a + d) % n) ⟨ver, a, i0⟩) n ver := by
      rw [freeCount_update idx n ver _ _ hh1n hfree rfl]
      omega
    have hocc1 : ∀ h, h < n →
        ((upd idx ((hf0 a + d) % n) ⟨ver, a, i0⟩) h).version = ver →
        ((upd idx ((hf0 a + d) % n) ⟨ver, a, i0⟩) h).address ∈ placed ++ [a] := by
      intro h hhn hv
      by_cases hx : h = (hf0 a + d) % n
      · subst hx
        rw [upd_same]
        exact List.mem_append_right placed (List.mem_singleton.mpr rfl)
      · rw [upd_other _ _ _ _ hx] at hv ⊢
        exact List.mem_append_left [a] (hocc h hhn hv)
    obtain ⟨idx', hres, hpres, hocc', hind⟩ :=
      ih (upd idx ((hf0 a + d) % n) ⟨ver, a, i0⟩) (i0 + 1) (placed ++ [a])
        hlen1 hocc1 hnd1
    refine ⟨idx', ?_, ?_, ?_, ?_⟩
    · rw [rebuildGo_cons hf0 n ver a rest i0 idx _ hprobe]
      exact hres
    · intro h hv
      have hx : h ≠ (hf0 a + d) % n := fun he => hfree (he ▸ hv)
      have h2 : ((upd idx ((hf0 a + d) % n) ⟨ver, a, i0⟩) h).version = ver := by
        rw [upd_other _ _ _ _ hx]
        exact hv
      rw [hpres h h2, upd_other _ _ _ _ hx]
    · intro h hhn hv
      have := hocc' h hhn hv
      rwa [List.append_assoc, List.singleton_append] at this
    · intro j hj
      cases j with
      | zero =>
        refine ⟨d, hdn, ?_, ?_⟩
        · intro e he
          show (idx' ((hf0 a + e) % n)).version = ver ∧
            (idx' ((hf0 a + e) % n)).address ≠ a
          have hoe : (idx ((hf0 a + e) % n)).version = ver := hpath e he
          have hxe : (hf0 a + e) % n ≠ (hf0 a + d) % n :=
            fun hcon => hfree (hcon ▸ hoe)
          have hupd : (upd idx ((hf0 a + d) % n) ⟨ver, a, i0⟩) ((hf0 a + e) % n) =
              idx ((hf0 a + e) % n) := upd_other _ _ _ _ hxe
          have hv1 : ((upd idx ((hf0 a + d) % n) ⟨ver, a, i0⟩) ((hf0 a + e) % n)).version
              = ver := by
            rw [hupd]
            exact hoe
          have hidx : idx' ((hf0 a + e) % n) = idx ((hf0 a + e) % n) := by
            rw [hpres _ hv1, hupd]
          rw [hidx]
          refine ⟨hoe, ?_⟩
          have hmem := hocc _ (Nat.mod_lt _ hn) hoe
          exact fun hcon => hanotp (hcon ▸ hmem)
        · show idx' ((hf0 a + d) % n) = ⟨ver, a, i0 + 0⟩
          have hv1 : ((upd idx ((hf0 a + d) % n) ⟨ver, a, i0⟩) ((hf0 a + d) % n)).version
              = ver := by
            rw [upd_same]
          rw [hpres _ hv1, upd_same, Nat.add_zero]
      | succ jj =>
        have hj' : jj < rest.length := by
          rw [List.length_cons] at hj
          omega
        obtain ⟨d', hd'n, hpath', hslot'⟩ := hind jj hj'
        refine ⟨d', hd'n, ?_, ?_⟩
        · intro e he
          show (idx' ((hf0 (rest.get ⟨jj, hj'⟩) + e) % n)).version = ver ∧
            (idx' ((hf0 (rest.get ⟨jj, hj'⟩) + e) % n)).address ≠ rest.get ⟨jj, hj'⟩
          exact hpath' e he
        · show idx' ((hf0 (rest.get ⟨jj, hj'⟩) + d') % n) =
            ⟨ver, rest.get ⟨jj, hj'⟩, i0 + (jj + 1)⟩
          have harith : i0 + 1 + jj = i0 + (jj + 1) := by omega
          rw [← harith]
          exact hslot'

theorem rebuildLookup_eq (ws ws2 : WriteSet) (idx : Nat → WSlot) (a : Nat)
    (h : ws.rebuild = some (ws2, idx)) :
    ws.rebuildLookup a =
      (probeFind idx ws2.ilength ws.version a ws2.ilength (wsHash ws2.shift a)).map idx := by
  unfold WriteSet.rebuildLookup
  rw [h]

theorem releaseLocks_mem :
    ∀ (ls : List Nat) (os : Nat → Orec) (a : Nat),
      Nano.releaseLocks os ls a =
        if a ∈ ls then ⟨(os a).p + 1, (os a).p⟩ else os a := by
  intro ls
  induction ls with
  | nil =>
    intro os a
    simp [Nano.releaseLocks]
  | cons b rest ih =>
    intro os a
    unfold Nano.releaseLocks
    rw [List.foldl_cons]
    have hr := ih (upd os b ⟨(os b).p + 1, (os b).p⟩) a
    unfold Nano.releaseLocks at hr
    rw [hr]
    by_cases hab : a = b
    · subst hab
      rw [upd_same]
      by_cases hmem : a ∈ rest
      · rw [if_pos hmem, if_pos (List.mem_cons_self a rest)]
      · rw [if_neg hmem, if_pos (List.mem_cons_self a rest)]
    · rw [upd_other _ _ _ _ hab]
      by_cases hmem : a ∈ rest
      · rw [if_pos hmem, if_pos (List.mem_cons_of_mem b hmem)]
      · rw [if_neg hmem,
          if_neg (fun h => (List.mem_cons.mp h).elim hab hmem)]

theorem validateRS_iff (myl : Nat) (os : Nat → Orec) (rs : List (Nat × Nat)) :
    Nano.validateRS myl os rs = true ↔ ∀ r ∈ rs, Nano.accept myl os r := by
  unfold Nano.validateRS Nano.accept
  simp only [List.all_eq_true, Bool.or_eq_true, Bool.and_eq_true, beq_iff_eq]

/-! ## Claim C1 -/

/-- C1: evaluation of Scope::LoggedWord::clip at a lower-end-only overlap
(word bytes 0..7, thrown range bytes 4..11) and at an upper-end-only
overlap (word bytes 4..11, thrown range bytes 2..7).  In both handled
cases the source performs the stated truncation or shift-and-advance, but
then — lacking a return after those branches — falls through to the
trailing assert(false) labeled "unreachable", so the claim that the call
returns normally is false on the code.  (The values show the policy was
applied first: 1234605616436508552 is 0x1122334455667788, and its 32-bit
right shift is 287454020 = 0x11223344.) -/
theorem c1_clip_assert_eval :
    LoggedWord.clip ⟨0, 8, 1234605616436508552⟩ 4 12 =
      ClipRes.assertUnreachable ⟨0, 4, 1234605616436508552⟩ ∧
    LoggedWord.clip ⟨4, 8, 1234605616436508552⟩ 2 8 =
      ClipRes.assertUnreachable ⟨8, 4, 287454020⟩ := by
  constructor <;> decide

/-! ## Claim C10 -/

/-- C10: for every transaction state, the in-flight irrevocability entry
points of both registered algorithms return false and leave the
transaction unchanged. -/
theorem c10_irrevoc_always_false (t : BETx) (u : NanoTx) :
    ByteEager.irrevoc t = (false, t) ∧ Nano.irrevoc u = (false, u) :=
  ⟨rfl, rfl⟩

/-! ## Claim C8 -/

/-- C8: with an empty thrown-object slot (first == NULL, modelled as 0),
setThrownObject records exactly the given pair and its precondition
assertion holds; a second setThrownObject on the same scope without an
intervening clearThrownObject fires the assertion (none). -/
theorem c8_setThrownObject (s : Scope) (a l a2 l2 : Nat)
    (h : s.thrown.1 = 0) (ha : a ≠ 0) :
    Scope.setThrownObject s a l = some { s with thrown := (a, l) } ∧
    Scope.setThrownObject { s with thrown := (a, l) } a2 l2 = none := by
  constructor
  · simp [Scope.setThrownObject, h]
  · simp [Scope.setThrownObject, ha]

/-- C8 witness: a concrete scope with an empty slot accepts (16, 4), and
the second registration fires the assertion. -/
theorem c8_setThrownObject_witness :
    (⟨false, 1, (0, 0), [], [], []⟩ : Scope).thrown.1 = 0 ∧
    Scope.setThrownObject ⟨false, 1, (0, 0), [], [], []⟩ 16 4 =
      some ⟨false, 1, (16, 4), [], [], []⟩ ∧
    Scope.setThrownObject ⟨false, 1, (16, 4), [], [], []⟩ 8 2 = none := by
  refine ⟨rfl, ?_⟩
  exact c8_setThrownObject ⟨false, 1, (0, 0), [], [], []⟩ 16 4 8 2 rfl (by decide)

/-! ## Claim C2 -/

/-- C2 counterexample: in read-only dispatch mode there is no writer-slot
check.  A transaction (id 1) that holds the writer slot of the bucket for
address 5 but whose reader byte is clear does not get the value back from
read_ro: it spins on its own lock and self-aborts. -/
theorem c2_read_ro_counterexample :
    ((⟨fun _ => ⟨1, fun _ => 0, 7, fun _ => 0⟩, fun _ => 42⟩ : BEState).tbl
        (get_bytelock 5)).owner = (⟨1, [], [], [], Mode.ro⟩ : BETx).id ∧
    (ByteEager.read_ro ⟨1, [], [], [], Mode.ro⟩
        ⟨fun _ => ⟨1, fun _ => 0, 7, fun _ => 0⟩, fun _ => 42⟩ 5).1 ≠
      Outcome.ok 42 := by
  exact ⟨rfl, by decide⟩

/-- C2 (amended): in read-write dispatch mode a transaction that already
holds the writer slot gets *addr back immediately, with no state change
(no reader-byte write, no spin, no abort); in read-only dispatch mode
read_ro performs no writer-slot check, so — unless its reader byte is
already set — a transaction holding the writer slot self-aborts after the
bounded spin on its own lock. -/
theorem c2_read_holding_writer_slot (tx : BETx) (st : BEState) (addr : Nat)
    (hown : (st.tbl (get_bytelock addr)).owner = tx.id) :
    ByteEager.read_rw tx st addr = (Outcome.ok (st.mem addr), tx, st) ∧
    (tx.id ≠ 0 → (st.tbl (get_bytelock addr)).reader (tx.id - 1) ≠ 1 →
      (ByteEager.read_ro tx st addr).1 = Outcome.abort) := by
  constructor
  · unfold ByteEager.read_rw
    rw [if_pos hown]
  · intro hid hrd
    unfold ByteEager.read_ro
    rw [if_neg hrd, if_neg (hown ▸ hid)]

/-- C2 witness: concrete instance of the amended claim at a bucket whose
owner is the transaction itself. -/
theorem c2_read_holding_writer_slot_witness :
    ((⟨fun _ => ⟨1, fun _ => 0, 7, fun _ => 0⟩, fun _ => 42⟩ : BEState).tbl
        (get_bytelock 5)).owner = (⟨1, [], [], [], Mode.rw⟩ : BETx).id ∧
    ByteEager.read_rw ⟨1, [], [], [], Mode.rw⟩
        ⟨fun _ => ⟨1, fun _ => 0, 7, fun _ => 0⟩, fun _ => 42⟩ 5 =
      (Outcome.ok 42, ⟨1, [], [], [], Mode.rw⟩,
       ⟨fun _ => ⟨1, fun _ => 0, 7, fun _ => 0⟩, fun _ => 42⟩) ∧
    (ByteEager.read_ro ⟨1, [], [], [], Mode.rw⟩
        ⟨fun _ => ⟨1, fun _ => 0, 7, fun _ => 0⟩, fun _ => 42⟩ 5).1 =
      Outcome.abort := by
  have h := c2_read_holding_writer_slot ⟨1, [], [], [], Mode.rw⟩
    ⟨fun _ => ⟨1, fun _ => 0, 7, fun _ => 0⟩, fun _ => 42⟩ 5 rfl
  exact ⟨rfl, h.1, h.2 (by decide) (by decide)⟩

/-! ## Claim C6 -/

/-- C6 counterexample: a read-only-mode transaction whose write-lock list
already holds a bucket (99) acquires a fresh write lock through
write_reserve; the call succeeds and logs the lock, but the dispatch mode
stays read-only because the switch is guarded by the list size being
exactly one. -/
theorem c6_write_reserve_counterexample :
    (ByteEager.write_reserve ⟨1, [], [99], [], Mode.ro⟩
        ⟨fun _ => ⟨0, fun _ => 0, 3, fun _ => 0⟩, fun _ => 5⟩ 7 255).1 =
      Outcome.ok () ∧
    (ByteEager.write_reserve ⟨1, [], [99], [], Mode.ro⟩
        ⟨fun _ => ⟨0, fun _ => 0, 3, fun _ => 0⟩, fun _ => 5⟩ 7 255).2.1.w_bytelocks =
      [99, 7] ∧
    (ByteEager.write_reserve ⟨1, [], [99], [], Mode.ro⟩
        ⟨fun _ => ⟨0, fun _ => 0, 3, fun _ => 0⟩, fun _ => 5⟩ 7 255).2.1.mode =
      Mode.ro := by
  refine ⟨by decide, by decide, by decide⟩

/-- C6 (amended): a write_reserve call that acquires a write lock the
transaction did not already hold performs no store to application memory
and appends the prior value to the undo log, but it switches dispatch to
the read-write variants only when the acquired bucket is the first entry
of the write-lock list; with earlier buckets present the mode is left
unchanged. -/
theorem c6_write_reserve_acquire (tx : BETx) (st : BEState) (addr mask : Nat)
    (hid : tx.id ≠ 0)
    (hown : (st.tbl (get_bytelock addr)).owner = 0)
    (hv : (st.tbl (get_bytelock addr)).reader_version (tx.id - 1) = 0 ∨
      (st.tbl (get_bytelock addr)).reader_version (tx.id - 1) =
        (st.tbl (get_bytelock addr)).version)
    (hdrain : ∀ j, j < MAX_THREADS → j ≠ tx.id - 1 →
      (st.tbl (get_bytelock addr)).reader j = 0) :
    (ByteEager.write_reserve tx st addr mask).1 = Outcome.ok () ∧
    (ByteEager.write_reserve tx st addr mask).2.2.mem = st.mem ∧
    (ByteEager.write_reserve tx st addr mask).2.1.undo_log =
      tx.undo_log ++ [⟨addr, st.mem addr, mask⟩] ∧
    (ByteEager.write_reserve tx st addr mask).2.1.w_bytelocks =
      tx.w_bytelocks ++ [get_bytelock addr] ∧
    (ByteEager.write_reserve tx st addr mask).2.1.mode =
      (if tx.w_bytelocks = [] then Mode.rw else tx.mode) := by
  have hne : ¬ (st.tbl (get_bytelock addr)).owner = tx.id := by
    rw [hown]; exact fun h => hid h.symm
  have hnz : ¬ (st.tbl (get_bytelock addr)).owner ≠ 0 := by
    rw [hown]; exact fun h => h rfl
  have hvc : ¬ ((st.tbl (get_bytelock addr)).reader_version (tx.id - 1) ≠ 0 ∧
      (st.tbl (get_bytelock addr)).reader_version (tx.id - 1) ≠
        (st.tbl (get_bytelock addr)).version) := by
    rcases hv with h | h
    · exact fun hc => hc.1 h
    · exact fun hc => hc.2 h
  have hall : ((List.range MAX_THREADS).all fun j =>
      (upd (st.tbl (get_bytelock addr)).reader (tx.id - 1) 0) j == 0) = true := by
    rw [List.all_eq_true]
    intro j hj
    rw [List.mem_range] at hj
    by_cases hje : j = tx.id - 1
    · subst hje; rw [upd_same]; rfl
    · rw [upd_other _ _ _ _ hje]
      have := hdrain j hj hje
      simp [this]
  have hlen : (tx.w_bytelocks ++ [get_bytelock addr]).length = 1 ↔
      tx.w_bytelocks = [] := by
    rw [List.length_append, List.length_singleton]
    constructor
    · intro h
      have : tx.w_bytelocks.length = 0 := by omega
      exact List.length_eq_zero.mp this
    · intro h; rw [h]; rfl
  have key : (ByteEager.write_reserve tx st addr mask).2.1 =
      if (tx.w_bytelocks ++ [get_bytelock addr]).length = 1 then
        { tx with
            w_bytelocks := tx.w_bytelocks ++ [get_bytelock addr],
            undo_log := tx.undo_log ++ [⟨addr, st.mem addr, mask⟩],
            mode := Mode.rw }
      else
        { tx with
            w_bytelocks := tx.w_bytelocks ++ [get_bytelock addr],
            undo_log := tx.undo_log ++ [⟨addr, st.mem addr, mask⟩] } := by
    unfold ByteEager.write_reserve
    rw [if_neg hne, if_neg hnz, if_neg hvc, if_pos hall]
  refine ⟨?_, ?_, ?_, ?_, ?_⟩
  · unfold ByteEager.write_reserve
    rw [if_neg hne, if_neg hnz, if_neg hvc, if_pos hall]
  · unfold ByteEager.write_reserve
    rw [if_neg hne, if_neg hnz, if_neg hvc, if_pos hall]
  · rw [key]
    by_cases hw : (tx.w_bytelocks ++ [get_bytelock addr]).length = 1
    · rw [if_pos hw]
    · rw [if_neg hw]
  · rw [key]
    by_cases hw : (tx.w_bytelocks ++ [get_bytelock addr]).length = 1
    · rw [if_pos hw]
    · rw [if_neg hw]
  · rw [key]
    by_cases hw : tx.w_bytelocks = []
    · rw [if_pos (hlen.mpr hw), if_pos hw]
    · rw [if_neg (fun h => hw (hlen.mp h)), if_neg hw]

/-- C6 witness: with an empty write-lock list the same acquisition makes
the first-write transition to read-write dispatch. -/
theorem c6_write_reserve_acquire_witness :
    (ByteEager.write_reserve ⟨1, [], [], [], Mode.ro⟩
        ⟨fun _ => ⟨0, fun _ => 0, 3, fun _ => 0⟩, fun _ => 5⟩ 7 255).1 =
      Outcome.ok () ∧
    (ByteEager.write_reserve ⟨1, [], [], [], Mode.ro⟩
        ⟨fun _ => ⟨0, fun _ => 0, 3, fun _ => 0⟩, fun _ => 5⟩ 7 255).2.2.mem =
      (⟨fun _ => ⟨0, fun _ => 0, 3, fun _ => 0⟩, fun _ => 5⟩ : BEState).mem ∧
    (ByteEager.write_reserve ⟨1, [], [], [], Mode.ro⟩
        ⟨fun _ => ⟨0, fun _ => 0, 3, fun _ => 0⟩, fun _ => 5⟩ 7 255).2.1.undo_log =
      [⟨7, 5, 255⟩] ∧
    (ByteEager.write_reserve ⟨1, [], [], [], Mode.ro⟩
        ⟨fun _ => ⟨0, fun _ => 0, 3, fun _ => 0⟩, fun _ => 5⟩ 7 255).2.1.mode =
      Mode.rw := by
  have h := c6_write_reserve_acquire ⟨1, [], [], [], Mode.ro⟩
    ⟨fun _ => ⟨0, fun _ => 0, 3, fun _ => 0⟩, fun _ => 5⟩ 7 255
    (by decide) rfl (Or.inl rfl) (by intro j _ _; rfl)
  exact ⟨h.1, h.2.1, h.2.2.1, h.2.2.2.2⟩

/-! ## Claim C4 -/

/-- C4 counterexample: a scope whose single undo entry (bytes 0..7)
partially overlaps the thrown range [4, 12) does not complete rollback:
the entry's clip falls into the trailing assertion (see C1), so rollback
neither runs the callbacks nor returns the thrown pair. -/
theorem c4_rollback_counterexample :
    Scope.rollback ⟨false, 3, (4, 8), [11], [⟨0, 8, 123⟩], [7]⟩ (fun _ => 0) =
      none := by
  rfl

/-- C4 (amended): provided every logged word either misses the thrown
range entirely or is wholly contained in it (one-sided overlaps trip
clip's trailing assertion, see C1), Scope::rollback performs exactly, in
order: (1) the undo replay of undo_on_rollback in reverse insertion order
with each entry clipped against the thrown range, (2) the do_on_rollback
callbacks in registration order, (3) clearing do_on_commit, (4) setting
aborted, and (5) returning the thrown pair — and no byte of the protected
range is overwritten. -/
theorem c4_rollback_steps (s : Scope) (mem : Nat → Nat)
    (h : ∀ w ∈ s.undo_on_rollback, clipTotal w s.thrown.1 (s.thrown.1 + s.thrown.2)) :
    Scope.rollback s mem = some
      ({ s with do_on_commit := [], aborted := true },
       clippedReplay s.thrown.1 (s.thrown.1 + s.thrown.2) s.undo_on_rollback.reverse mem,
       (s.undo_on_rollback.reverse.map fun w =>
          Event.undoWrite (clipApply w s.thrown.1 (s.thrown.1 + s.thrown.2)).address
            (clipApply w s.thrown.1 (s.thrown.1 + s.thrown.2)).bytes
            (clipApply w s.thrown.1 (s.thrown.1 + s.thrown.2)).value)
         ++ s.do_on_rollback.map Event.callback,
       s.thrown) ∧
    ∀ b, s.thrown.1 ≤ b → b < s.thrown.1 + s.thrown.2 →
      clippedReplay s.thrown.1 (s.thrown.1 + s.thrown.2) s.undo_on_rollback.reverse mem b =
        mem b := by
  have hrev : ∀ w ∈ s.undo_on_rollback.reverse,
      clipTotal w s.thrown.1 (s.thrown.1 + s.thrown.2) := by
    intro w hw
    exact h w (List.mem_reverse.mp hw)
  constructor
  · unfold Scope.rollback
    rw [undoAll_total _ _ _ mem hrev]
  · intro b hlo hhi
    exact clippedReplay_protect _ _ _ mem b hrev hlo hhi

/-- C4 witness: a concrete rollback with one fully protected entry
(bytes 4..7 inside the thrown range [4, 8)) and one disjoint entry
(bytes 0..3), two callbacks, and a pending commit callback. -/
theorem c4_rollback_steps_witness :
    (∀ w ∈ [(⟨4, 4, 258⟩ : LoggedWord), ⟨0, 4, 7⟩], clipTotal w 4 (4 + 4)) ∧
    Scope.rollback ⟨false, 2, (4, 4), [21, 22], [⟨4, 4, 258⟩, ⟨0, 4, 7⟩], [9]⟩
        (fun _ => 99) =
      some (⟨true, 2, (4, 4), [21, 22], [⟨4, 4, 258⟩, ⟨0, 4, 7⟩], []⟩,
        clippedReplay 4 (4 + 4) [⟨0, 4, 7⟩, ⟨4, 4, 258⟩] (fun _ => 99),
        [Event.undoWrite 0 4 7, Event.undoWrite 4 0 258,
         Event.callback 21, Event.callback 22],
        (4, 4)) ∧
    clippedReplay 4 (4 + 4) [⟨0, 4, 7⟩, ⟨4, 4, 258⟩] (fun _ => 99) 5 = 99 := by
  have h := c4_rollback_steps ⟨false, 2, (4, 4), [21, 22], [⟨4, 4, 258⟩, ⟨0, 4, 7⟩], [9]⟩
    (fun _ => 99) (by decide)
  exact ⟨by decide, h.1, h.2 5 (by decide) (by decide)⟩

/-! ## Claim C3 -/

/-- C3: given a successful acquire phase (ending with orec table os1 and
newly acquired list ls1), Nano's read-write commit succeeds iff every
logged read-set entry (o, v) passes the test "o's current word equals v,
or o is locked by my_lock and v equals o's saved previous version p"; on
any failure it aborts with memory unwritten (abort before writeback); on
success the redo log is written back in insertion order and every orec
acquired during this commit is released by publishing v = p + 1. -/
theorem c3_nano_commit_validation (tx : NanoTx) (st : NanoState)
    (os1 : Nat → Orec) (ls1 : List Nat)
    (h0 : tx.locks = [])
    (hacq : Nano.acquire (myLock tx) tx.writes st.orecs [] = (true, os1, ls1)) :
    ((Nano.commit_rw tx st).1 = Outcome.ok () ↔
       ∀ r ∈ tx.nanorecs, Nano.accept (myLock tx) os1 r) ∧
    ((¬ ∀ r ∈ tx.nanorecs, Nano.accept (myLock tx) os1 r) →
       (Nano.commit_rw tx st).1 = Outcome.abort ∧
       (Nano.commit_rw tx st).2.2.mem = st.mem) ∧
    ((∀ r ∈ tx.nanorecs, Nano.accept (myLock tx) os1 r) →
       (Nano.commit_rw tx st).2.2.mem = WriteSet.writeback st.mem tx.writes ∧
       ∀ a ∈ ls1, (Nano.commit_rw tx st).2.2.orecs a = ⟨(os1 a).p + 1, (os1 a).p⟩) := by
  have hcommit : Nano.commit_rw tx st =
      (if Nano.validateRS (myLock tx) os1 tx.nanorecs = false then
        (Outcome.abort, { tx with locks := ls1 }, { st with orecs := os1 })
      else
        (Outcome.ok (),
         { tx with writes := [], nanorecs := [], locks := [], mode := Mode.ro },
         { orecs := Nano.releaseLocks os1 ls1,
           mem := WriteSet.writeback st.mem tx.writes })) := by
    unfold Nano.commit_rw
    rw [h0, hacq]
    rfl
  cases hb : Nano.validateRS (myLock tx) os1 tx.nanorecs with
  | false =>
    have hnall : ¬ ∀ r ∈ tx.nanorecs, Nano.accept (myLock tx) os1 r := by
      intro hall
      have hv := (validateRS_iff (myLock tx) os1 tx.nanorecs).mpr hall
      rw [hb] at hv
      exact Bool.noConfusion hv
    refine ⟨⟨?_, ?_⟩, ?_, ?_⟩
    · intro hok
      rw [hcommit, if_pos hb] at hok
      exact Outcome.noConfusion hok
    · intro hall
      exact absurd hall hnall
    · intro _
      rw [hcommit, if_pos hb]
      exact ⟨rfl, rfl⟩
    · intro hall
      exact absurd hall hnall
  | true =>
    have hall := (validateRS_iff (myLock tx) os1 tx.nanorecs).mp hb
    have hif : Nano.commit_rw tx st =
        (Outcome.ok (),
         { tx with writes := [], nanorecs := [], locks := [], mode := Mode.ro },
         { orecs := Nano.releaseLocks os1 ls1,
           mem := WriteSet.writeback st.mem tx.writes }) := by
      rw [hcommit, if_neg (by simp [hb])]
    refine ⟨⟨fun _ => hall, fun _ => by rw [hif]⟩, ?_, ?_⟩
    · intro hn
      exact absurd hall hn
    · intro _
      refine ⟨by rw [hif], ?_⟩
      intro a ha
      rw [hif]
      show Nano.releaseLocks os1 ls1 a = ⟨(os1 a).p + 1, (os1 a).p⟩
      rw [releaseLocks_mem ls1 os1 a, if_pos ha]

/-- C3 witness: a transaction with one write to address 10 (value 99) and
a read-set entry (10, 5) over an orec table where orec 10 holds word 5:
the acquire phase locks orec 10 saving p = 5, validation passes through
the locked-by-me arm, the redo log lands in memory, and the orec is
released at version 6 = p + 1. -/
theorem c3_nano_commit_validation_witness :
    Nano.acquire (myLock ⟨1, [(10, 99)], [(10, 5)], [], Mode.rw⟩) [(10, 99)]
        (fun _ => ⟨5, 0⟩) [] =
      (true, upd (fun _ => ⟨5, 0⟩) 10 ⟨LOCK_BIT + 1, 5⟩, [10]) ∧
    (Nano.commit_rw ⟨1, [(10, 99)], [(10, 5)], [], Mode.rw⟩
        ⟨fun _ => ⟨5, 0⟩, fun _ => 0⟩).1 = Outcome.ok () ∧
    (Nano.commit_rw ⟨1, [(10, 99)], [(10, 5)], [], Mode.rw⟩
        ⟨fun _ => ⟨5, 0⟩, fun _ => 0⟩).2.2.mem 10 = 99 ∧
    (Nano.commit_rw ⟨1, [(10, 99)], [(10, 5)], [], Mode.rw⟩
        ⟨fun _ => ⟨5, 0⟩, fun _ => 0⟩).2.2.orecs 10 = ⟨6, 5⟩ := by
  have h := c3_nano_commit_validation ⟨1, [(10, 99)], [(10, 5)], [], Mode.rw⟩
    ⟨fun _ => ⟨5, 0⟩, fun _ => 0⟩ (upd (fun _ => ⟨5, 0⟩) 10 ⟨LOCK_BIT + 1, 5⟩) [10]
    rfl rfl
  have hall : ∀ r ∈ [((10 : Nat), (5 : Nat))],
      Nano.accept (myLock ⟨1, [(10, 99)], [(10, 5)], [], Mode.rw⟩)
        (upd (fun _ => ⟨5, 0⟩) 10 ⟨LOCK_BIT + 1, 5⟩) r := by
    decide
  refine ⟨rfl, h.1.mpr hall, ?_, ?_⟩
  · have hm := (h.2.2 hall).1
    rw [hm]
    rfl
  · have ho := (h.2.2 hall).2 10 (by decide)
    rw [ho]
    rfl

/-! ## Claim C5 -/

/-- C5: exception-aware UndoLog::undo replays in reverse insertion order
(last conjunct, null exception; the filtered walk uses the same reverse
fold); an entry whose bytes all lie in [lower, upper) is filtered out
(first conjunct); a non-intersecting entry passes through unchanged
(second conjunct); an intersecting, not-fully-contained entry has exactly
the mask bits of its in-range bytes cleared and is discarded iff the
resulting mask is zero (third conjunct); and an exception range covering
every logged byte makes undo perform zero writes (fourth conjunct). -/
theorem c5_undo_exception_filtering :
    (∀ (e : ULEntry) (lower upper : Nat), lower ≤ e.addr →
       e.addr + WORD_BYTES ≤ upper → (e.filter lower upper).1 = true) ∧
    (∀ (e : ULEntry) (lower upper : Nat),
       e.addr + WORD_BYTES ≤ lower ∨ upper ≤ e.addr →
       e.filter lower upper = (false, e)) ∧
    (∀ (e : ULEntry) (lower upper : Nat),
       e.addr < upper → lower < e.addr + WORD_BYTES →
       ¬ (lower ≤ e.addr ∧ e.addr + WORD_BYTES ≤ upper) →
       e.filter lower upper =
         ((List.range WORD_BYTES).all fun i => !(maskFilter e lower upper i),
          { e with mask := maskFilter e lower upper })) ∧
    (∀ (exc len : Nat) (log : List ULEntry) (mem : Nat → Nat), exc ≠ 0 →
       (∀ e ∈ log, exc ≤ e.addr ∧ e.addr + WORD_BYTES ≤ exc + len) →
       UndoLog.undo exc len log mem = mem) ∧
    (∀ (len : Nat) (log : List ULEntry) (mem : Nat → Nat),
       UndoLog.undo 0 len log mem = log.reverse.foldl ULEntry.applyMasked mem) := by
  refine ⟨filter_contained, ?_, ?_, ?_, ?_⟩
  · intro e lower upper h
    unfold ULEntry.filter
    rw [if_pos h]
  · intro e lower upper hov1 hov2 hnc
    unfold ULEntry.filter ULEntry.filterSlow
    have h1 : ¬ (e.addr + WORD_BYTES ≤ lower ∨ upper ≤ e.addr) := by
      intro h
      rcases h with h | h <;> omega
    rw [if_neg h1]
    have h2 : ¬ (lower ≤ e.addr ∧ e.addr + WORD_BYTES < upper) :=
      fun h => hnc ⟨h.1, by omega⟩
    rw [if_neg h2]
  · intro exc len log mem hexc hcov
    unfold UndoLog.undo
    rw [if_neg hexc]
    exact undo_filtered_all exc len log.reverse mem
      (fun e he => hcov e (List.mem_reverse.mp he))
  · intro len log mem
    unfold UndoLog.undo
    rw [if_pos rfl]

/-- C5 witness: concrete instances — a fully covered entry (bytes 8..15 in
range [8, 16)) is filtered; a disjoint entry passes through unchanged; a
straddling entry (bytes 4..12 against [8, 16)) gets exactly its in-range
mask bits cleared; a fully covered log replays zero writes; a null
exception replays the reverse fold. -/
theorem c5_undo_exception_filtering_witness :
    (8 ≤ (⟨8, 171, fun _ => true⟩ : ULEntry).addr ∧
     (⟨8, 171, fun _ => true⟩ : ULEntry).addr + WORD_BYTES ≤ 16) ∧
    ((⟨8, 171, fun _ => true⟩ : ULEntry).filter 8 16).1 = true ∧
    (⟨0, 7, fun _ => true⟩ : ULEntry).filter 20 24 = (false, ⟨0, 7, fun _ => true⟩) ∧
    (⟨4, 9, fun _ => true⟩ : ULEntry).filter 8 16 =
      ((List.range WORD_BYTES).all fun i => !(maskFilter ⟨4, 9, fun _ => true⟩ 8 16 i),
       { (⟨4, 9, fun _ => true⟩ : ULEntry) with
           mask := maskFilter ⟨4, 9, fun _ => true⟩ 8 16 }) ∧
    UndoLog.undo 8 8 [⟨8, 171, fun _ => true⟩] (fun _ => 5) = (fun _ => 5) ∧
    UndoLog.undo 0 3 [⟨8, 171, fun _ => true⟩] (fun _ => 5) =
      ([(⟨8, 171, fun _ => true⟩ : ULEntry)]).reverse.foldl ULEntry.applyMasked
        (fun _ => 5) := by
  refine ⟨⟨by decide, by decide⟩,
    c5_undo_exception_filtering.1 ⟨8, 171, fun _ => true⟩ 8 16 (by decide) (by decide),
    c5_undo_exception_filtering.2.1 ⟨0, 7, fun _ => true⟩ 20 24 (Or.inl (by decide)),
    c5_undo_exception_filtering.2.2.1 ⟨4, 9, fun _ => true⟩ 8 16 (by decide) (by decide)
      (by decide),
    c5_undo_exception_filtering.2.2.2.1 8 8 [⟨8, 171, fun _ => true⟩] (fun _ => 5)
      (by decide) (by decide),
    c5_undo_exception_filtering.2.2.2.2 3 [⟨8, 171, fun _ => true⟩] (fun _ => 5)⟩

/-! ## Claim C7 -/

/-- C7: after WriteSet::rebuild (given the code's own preconditions: a
nonzero version, a nonzero shift, distinct logged addresses — insert
merges repeats — and a list shorter than the doubled index), every list
position i is reachable from the index: linear probing from
hash(list[i].addr) finds a slot whose version equals the current version,
whose address equals list[i].addr and whose index field equals i; and
WriteSet::resize exactly doubles capacity while leaving the entry list
unchanged and in insertion order. -/
theorem c7_writeset_rebuild_resize (ws : WriteSet)
    (hv : ws.version ≠ 0) (hs : ws.shift ≠ 0)
    (hnd : (ws.list.map WEntry.addr).Nodup)
    (hlen : ws.list.length < 2 ^ (32 - (ws.shift - 1))) :
    (ws.resize.capacity = 2 * ws.capacity ∧ ws.resize.list = ws.list) ∧
    ws.rebuild.isSome = true ∧
    ∀ i (hi : i < ws.list.length),
      ws.rebuildLookup (ws.list.get ⟨i, hi⟩).addr =
        some ⟨ws.version, (ws.list.get ⟨i, hi⟩).addr, i⟩ := by
  have hn : 0 < 2 ^ (32 - (ws.shift - 1)) := Nat.pos_pow_of_pos _ (by decide)
  have hfc : freeCount (fun _ => (⟨0, 0, 0⟩ : WSlot)) (2 ^ (32 - (ws.shift - 1)))
      ws.version = 2 ^ (32 - (ws.shift - 1)) := by
    unfold freeCount
    rw [Finset.filter_true_of_mem, Finset.card_range]
    intro x _
    exact fun h => hv h.symm
  have hlen2 : (ws.list.map WEntry.addr).length ≤
      freeCount (fun _ => (⟨0, 0, 0⟩ : WSlot)) (2 ^ (32 - (ws.shift - 1)))
        ws.version := by
    rw [List.length_map, hfc]
    omega
  have hocc0 : ∀ h, h < 2 ^ (32 - (ws.shift - 1)) →
      ((fun _ => (⟨0, 0, 0⟩ : WSlot)) h).version = ws.version →
      ((fun _ => (⟨0, 0, 0⟩ : WSlot)) h).address ∈ ([] : List Nat) := by
    intro h _ hcon
    exact absurd hcon.symm hv
  have hnd0 : (([] : List Nat) ++ ws.list.map WEntry.addr).Nodup := by
    rw [List.nil_append]
    exact hnd
  obtain ⟨idx', hres, _, _, hind⟩ :=
    rebuildGo_spec (wsHash (ws.shift - 1)) (2 ^ (32 - (ws.shift - 1))) ws.version hn
      (ws.list.map WEntry.addr) (fun _ => ⟨0, 0, 0⟩) 0 [] hlen2 hocc0 hnd0
  have hdbl : ws.doubleIndexLength =
      some { ws with shift := ws.shift - 1, ilength := 2 ^ (32 - (ws.shift - 1)) } := by
    unfold WriteSet.doubleIndexLength
    rw [if_neg hs]
  have hreb : ws.rebuild =
      some ({ ws with shift := ws.shift - 1, ilength := 2 ^ (32 - (ws.shift - 1)) },
        idx') := by
    unfold WriteSet.rebuild
    rw [if_neg hv, hdbl]
    show (match rebuildGo (wsHash (ws.shift - 1)) (2 ^ (32 - (ws.shift - 1)))
        ws.version (ws.list.map WEntry.addr) 0 (fun _ => ⟨0, 0, 0⟩) with
      | none => none
      | some idx =>
        some
          ({ ws with
              shift := ws.shift - 1,
              ilength := 2 ^ (32 - (ws.shift - 1)) },
            idx)) = _
    rw [hres]
  refine ⟨⟨rfl, rfl⟩, by rw [hreb]; rfl, ?_⟩
  intro i hi
  have hi2 : i < (ws.list.map WEntry.addr).length := by
    rw [List.length_map]
    exact hi
  have hget : (ws.list.map WEntry.addr).get ⟨i, hi2⟩ = (ws.list.get ⟨i, hi⟩).addr := by
    simp [List.get_eq_getElem]
  obtain ⟨d, hdn, hpath, hslot⟩ := hind i hi2
  rw [hget] at hpath hslot
  have hfind := probeFind_eq idx' (2 ^ (32 - (ws.shift - 1))) ws.version
    ((ws.list.get ⟨i, hi⟩).addr) d (wsHash (ws.shift - 1) ((ws.list.get ⟨i, hi⟩).addr))
    (2 ^ (32 - (ws.shift - 1))) hdn
    (fun e he => hpath e he)
    (by rw [hslot])
    (by rw [hslot])
  rw [rebuildLookup_eq ws _ idx' _ hreb]
  have hil : ({ ws with
      shift := ws.shift - 1,
      ilength := 2 ^ (32 - (ws.shift - 1)) } : WriteSet).ilength =
      2 ^ (32 - (ws.shift - 1)) := rfl
  have hsh : ({ ws with
      shift := ws.shift - 1,
      ilength := 2 ^ (32 - (ws.shift - 1)) } : WriteSet).shift = ws.shift - 1 := rfl
  rw [hil, hsh, hfind]
  show some (idx' ((wsHash (ws.shift - 1) ((ws.list.get ⟨i, hi⟩).addr) + d) %
    2 ^ (32 - (ws.shift - 1)))) = _
  rw [hslot, Nat.zero_add]

/-- C7 witness: a concrete write set (shift 29, so the doubled index has
16 slots; version 1; three entries with distinct addresses 0, 8, 16):
rebuild succeeds, probing finds entry 0 at its exact slot, and resize
doubles capacity 4 to 8 keeping the list. -/
theorem c7_writeset_rebuild_resize_witness :
    ((⟨29, 8, 1, 4, [⟨0, 10, 0⟩, ⟨8, 20, 0⟩, ⟨16, 30, 0⟩]⟩ : WriteSet).resize.capacity =
        2 * 4 ∧
      (⟨29, 8, 1, 4, [⟨0, 10, 0⟩, ⟨8, 20, 0⟩, ⟨16, 30, 0⟩]⟩ : WriteSet).resize.list =
        [⟨0, 10, 0⟩, ⟨8, 20, 0⟩, ⟨16, 30, 0⟩]) ∧
    (⟨29, 8, 1, 4, [⟨0, 10, 0⟩, ⟨8, 20, 0⟩, ⟨16, 30, 0⟩]⟩ : WriteSet).rebuild.isSome =
      true ∧
    (⟨29, 8, 1, 4, [⟨0, 10, 0⟩, ⟨8, 20, 0⟩, ⟨16, 30, 0⟩]⟩ : WriteSet).rebuildLookup 8 =
      some ⟨1, 8, 1⟩ := by
  have h := c7_writeset_rebuild_resize
    ⟨29, 8, 1, 4, [⟨0, 10, 0⟩, ⟨8, 20, 0⟩, ⟨16, 30, 0⟩]⟩
    (by decide) (by decide) (by decide) (by decide)
  exact ⟨h.1, h.2.1, h.2.2 1 (by decide)⟩

/-! ## Claim C9 -/

/-- C9: the conflict-abort path tmabort clears the innermost scope's
thrown object before restart, so the rollback that follows protects no
bytes: every undo entry is replayed unclipped, the emptied (0, 0) pair is
returned, and the earlier-registered range does not survive. -/
theorem c9_tmabort_clears_thrown (s : Scope) (mem : Nat → Nat) :
    (tmabort s).thrown = (0, 0) ∧
    Scope.rollback (tmabort s) mem = some
      ({ s with thrown := (0, 0), do_on_commit := [], aborted := true },
       s.undo_on_rollback.reverse.foldl
         (fun m w => applyWriteLE m w.address w.bytes w.value) mem,
       (s.undo_on_rollback.reverse.map fun w =>
          Event.undoWrite w.address w.bytes w.value)
         ++ s.do_on_rollback.map Event.callback,
       (0, 0)) := by
  constructor
  · rfl
  · unfold Scope.rollback tmabort Scope.clearThrownObject
    simp only [Nat.add_zero, undoAll_zero]

end RSTM
